import Mathlib

/-!
Verification of the chromatic_geography color-extraction core.

The definitions below are a shallow embedding of the Python functions in
src/scripts/test_palette.py (the canonical strict path) and the hand-rolled
k-means quantizer in the copied lesson script.  Machine reals are modeled by
exact rationals; Python exceptions are modeled by Option results.
-/

namespace Chromatic

/-- A color is an RGB triple of natural numbers (each channel 0 to 255 in valid inputs). -/
abbrev Color := ℕ × ℕ × ℕ

/-- One lowercase hexadecimal digit character for a value below 16, as produced
by the Python hexadecimal format specifier. -/
def hexChar (n : ℕ) : Char :=
  if n < 10 then Char.ofNat (48 + n) else Char.ofNat (87 + n)

/-- Big-endian hexadecimal digit characters of a number, with no leading zeros
and the empty list for zero: the digit core of Python hexadecimal formatting. -/
def hexDigits (n : ℕ) : List Char :=
  if h : n = 0 then [] else hexDigits (n / 16) ++ [hexChar (n % 16)]
termination_by n
decreasing_by exact Nat.div_lt_self (Nat.pos_of_ne_zero h) (by norm_num)

/-- Model of the Python format spec 02x: lowercase hexadecimal, left-padded
with zeros to at least two digits. -/
def hex02 (n : ℕ) : List Char :=
  let ds := if n = 0 then ['0'] else hexDigits n
  if ds.length < 2 then List.replicate (2 - ds.length) '0' ++ ds else ds

/-- Translation of rgb_to_hex: a hash sign followed by the three channels, each
in 02x format. -/
def rgb_to_hex (r g b : ℕ) : String :=
  String.mk ('#' :: (hex02 r ++ hex02 g ++ hex02 b))

/-- Value of one hexadecimal digit character as accepted by Python int with
base 16; none for any other character. -/
def hexDigitVal (c : Char) : Option ℕ :=
  if 48 ≤ c.toNat ∧ c.toNat ≤ 57 then some (c.toNat - 48)
  else if 97 ≤ c.toNat ∧ c.toNat ≤ 102 then some (c.toNat - 87)
  else if 65 ≤ c.toNat ∧ c.toNat ≤ 70 then some (c.toNat - 55)
  else none

/-- Translation of Python int applied to a plain digit string with base 16:
none on the empty string or on any invalid character, mirroring the raised
ValueError. -/
def parseHex (cs : List Char) : Option ℕ :=
  if cs = [] then none
  else cs.foldl (fun acc c => acc.bind fun a => (hexDigitVal c).map fun d => 16 * a + d) (some 0)

/-- Translation of hex_to_rgb: strip leading hash signs, then parse the three
two-character slices as base-16 integers. -/
def hex_to_rgb (s : String) : Option Color :=
  let cs := s.data.dropWhile fun c => c = '#'
  (parseHex (cs.take 2)).bind fun r =>
    (parseHex ((cs.drop 2).take 2)).bind fun g =>
      (parseHex ((cs.drop 4).take 2)).map fun b => (r, g, b)

/-- A lowercase hexadecimal digit character. -/
def isHexLower (c : Char) : Bool :=
  (decide (48 ≤ c.toNat) && decide (c.toNat ≤ 57)) ||
    (decide (97 ≤ c.toNat) && decide (c.toNat ≤ 102))

theorem hexDigits_eq (n : ℕ) (hn : n ≠ 0) :
    hexDigits n = hexDigits (n / 16) ++ [hexChar (n % 16)] := by
  rw [hexDigits]
  simp [hn]

theorem hexDigits_lt16 (n : ℕ) (h0 : n ≠ 0) (h : n < 16) : hexDigits n = [hexChar n] := by
  rw [hexDigits_eq n h0, Nat.div_eq_of_lt h, Nat.mod_eq_of_lt h, hexDigits]
  simp

theorem hexChar_zero : hexChar 0 = '0' := by decide

/-- For a byte value the 02x format is exactly the two hexadecimal digits. -/
theorem hex02_byte (n : ℕ) (h : n ≤ 255) : hex02 n = [hexChar (n / 16), hexChar (n % 16)] := by
  by_cases h0 : n = 0
  · subst h0
    decide
  · by_cases h16 : n < 16
    · rw [hex02]
      simp only [h0, if_false]
      rw [hexDigits_lt16 n h0 h16]
      rw [Nat.div_eq_of_lt h16, Nat.mod_eq_of_lt h16]
      simp [hexChar_zero]
    · have hq0 : n / 16 ≠ 0 := by
        intro hq
        exact h16 (by omega)
      have hqlt : n / 16 < 16 := by omega
      rw [hex02]
      simp only [h0, if_false]
      rw [hexDigits_eq n h0, hexDigits_lt16 (n / 16) hq0 hqlt]
      simp

theorem hexDigitVal_hexChar (d : ℕ) (h : d < 16) : hexDigitVal (hexChar d) = some d := by
  interval_cases d <;> decide

theorem hexChar_ne_hash (d : ℕ) (h : d < 16) : hexChar d ≠ '#' := by
  interval_cases d <;> decide

theorem isHexLower_hexChar (d : ℕ) (h : d < 16) : isHexLower (hexChar d) = true := by
  interval_cases d <;> decide

theorem parseHex_pair (d1 d2 : ℕ) (h1 : d1 < 16) (h2 : d2 < 16) :
    parseHex [hexChar d1, hexChar d2] = some (16 * d1 + d2) := by
  rw [parseHex]
  simp [List.foldl, hexDigitVal_hexChar d1 h1, hexDigitVal_hexChar d2 h2]

/-- C8: for every color with integer channels in the byte range, rgb_to_hex
produces exactly 7 characters, a hash sign followed by six lowercase
hexadecimal digits, and converting that hex string back to RGB with hex_to_rgb
and again to hex yields the original hex string. -/
theorem toHex_roundtrip (r g b : ℕ) (hr : r ≤ 255) (hg : g ≤ 255) (hb : b ≤ 255) :
    (rgb_to_hex r g b).length = 7 ∧
    (rgb_to_hex r g b).data.head? = some '#' ∧
    (rgb_to_hex r g b).data.tail.all isHexLower = true ∧
    hex_to_rgb (rgb_to_hex r g b) = some (r, g, b) ∧
    (hex_to_rgb (rgb_to_hex r g b)).map (fun t => rgb_to_hex t.1 t.2.1 t.2.2) =
      some (rgb_to_hex r g b) := by
  have hrd : r / 16 < 16 := by omega
  have hrm : r % 16 < 16 := Nat.mod_lt _ (by norm_num)
  have hgd : g / 16 < 16 := by omega
  have hgm : g % 16 < 16 := Nat.mod_lt _ (by norm_num)
  have hbd : b / 16 < 16 := by omega
  have hbm : b % 16 < 16 := Nat.mod_lt _ (by norm_num)
  have hdata : (rgb_to_hex r g b).data =
      ['#', hexChar (r / 16), hexChar (r % 16), hexChar (g / 16), hexChar (g % 16),
        hexChar (b / 16), hexChar (b % 16)] := by
    simp [rgb_to_hex, hex02_byte r hr, hex02_byte g hg, hex02_byte b hb]
  have hlen : (rgb_to_hex r g b).length = 7 := by
    have : (rgb_to_hex r g b).length = (rgb_to_hex r g b).data.length := rfl
    rw [this, hdata]
    rfl
  have hparse : hex_to_rgb (rgb_to_hex r g b) = some (r, g, b) := by
    rw [hex_to_rgb, hdata]
    have hdw : List.dropWhile (fun c => c = '#')
        ['#', hexChar (r / 16), hexChar (r % 16), hexChar (g / 16), hexChar (g % 16),
          hexChar (b / 16), hexChar (b % 16)] =
        [hexChar (r / 16), hexChar (r % 16), hexChar (g / 16), hexChar (g % 16),
          hexChar (b / 16), hexChar (b % 16)] := by
      simp [List.dropWhile, hexChar_ne_hash (r / 16) hrd]
    simp only [hdw]
    simp only [List.take, List.drop]
    rw [parseHex_pair _ _ hrd hrm, parseHex_pair _ _ hgd hgm, parseHex_pair _ _ hbd hbm]
    simp [Nat.div_add_mod]
  refine ⟨hlen, ?_, ?_, hparse, ?_⟩
  · rw [hdata]
    rfl
  · rw [hdata]
    simp [List.all, isHexLower_hexChar _ hrd, isHexLower_hexChar _ hrm,
      isHexLower_hexChar _ hgd, isHexLower_hexChar _ hgm,
      isHexLower_hexChar _ hbd, isHexLower_hexChar _ hbm]
  · rw [hparse]
    rfl

/-- Closed witness for the hex round-trip theorem at a concrete color. -/
theorem toHex_roundtrip_witness :
    (rgb_to_hex 255 107 107).length = 7 ∧
    (rgb_to_hex 255 107 107).data.head? = some '#' ∧
    (rgb_to_hex 255 107 107).data.tail.all isHexLower = true ∧
    hex_to_rgb (rgb_to_hex 255 107 107) = some (255, 107, 107) ∧
    (hex_to_rgb (rgb_to_hex 255 107 107)).map (fun t => rgb_to_hex t.1 t.2.1 t.2.2) =
      some (rgb_to_hex 255 107 107) :=
  toHex_roundtrip 255 107 107 (by decide) (by decide) (by decide)

/-- Python float modulo by six used in the hue branch, modeled exactly on
rationals: the remainder has the sign of the divisor. -/
def qmod6 (x : ℚ) : ℚ := x - 6 * ⌊x / 6⌋

/-- Translation of rgb_to_hsl over exact rationals: hue in degrees, saturation
and lightness as percentages; a true gray has hue and saturation zero. -/
def rgb_to_hsl (r g b : ℕ) : ℚ × ℚ × ℚ :=
  let r' : ℚ := r / 255
  let g' : ℚ := g / 255
  let b' : ℚ := b / 255
  let maxc := max r' (max g' b')
  let minc := min r' (min g' b')
  let diff := maxc - minc
  let l := (maxc + minc) / 2
  if diff = 0 then (0, 0, l * 100)
  else
    let s := if l > 1 / 2 then diff / (2 - maxc - minc) else diff / (maxc + minc)
    let h :=
      if maxc = r' then qmod6 ((g' - b') / diff)
      else if maxc = g' then (b' - r') / diff + 2
      else (r' - g') / diff + 4
    (h * 60, s * 100, l * 100)

/-- HSL triple of a color. -/
def hslOf (c : Color) : ℚ × ℚ × ℚ := rgb_to_hsl c.1 c.2.1 c.2.2

/-- Hue of a color in degrees. -/
def hueOf (c : Color) : ℚ := (hslOf c).1

/-- Saturation percentage of a color. -/
def satOf (c : Color) : ℚ := (hslOf c).2.1

/-- Lightness percentage of a color. -/
def lightOf (c : Color) : ℚ := (hslOf c).2.2

/-- The three stateless rejection tests of filter_colors, in source order: too
dark or too light, too gray, or in the muddy middle band. -/
def rejectedBasic (c : Color) : Bool :=
  decide (lightOf c < 15) || decide (lightOf c > 85) || decide (satOf c < 20) ||
    (decide (satOf c < 30) && decide (25 < lightOf c) && decide (lightOf c < 75))

/-- Earth-tone classification of filter_colors. -/
def is_brown (c : Color) : Bool :=
  decide (15 ≤ hueOf c) && decide (hueOf c ≤ 45) && decide (satOf c < 55) &&
    decide (25 < lightOf c) && decide (lightOf c < 65)

/-- The accumulation loop of filter_colors: keep survivors in input order while
counting accepted earth tones against the cap. -/
def filterLoop (maxBrowns : ℕ) : List Color → ℕ → List Color
  | [], _ => []
  | c :: cs, bc =>
    if rejectedBasic c then filterLoop maxBrowns cs bc
    else if is_brown c then
      if maxBrowns ≤ bc then filterLoop maxBrowns cs bc
      else c :: filterLoop maxBrowns cs (bc + 1)
    else c :: filterLoop maxBrowns cs bc

/-- Ranking relation of the saturation sort: the earlier element has saturation
at least that of the later one.  Python's stable descending sort by a key is
insertion sort with this relation. -/
def satGE (a b : Color) : Prop := satOf b ≤ satOf a

instance : DecidableRel satGE := fun a b => inferInstanceAs (Decidable (satOf b ≤ satOf a))

instance : IsTotal Color satGE := ⟨fun a b => le_total (satOf b) (satOf a)⟩

instance : IsTrans Color satGE := ⟨fun _ _ _ h1 h2 => le_trans h2 h1⟩

/-- Python sorted by saturation with reverse set, as used by filter_colors. -/
def sortSatDesc (l : List Color) : List Color := List.insertionSort satGE l

/-- Translation of filter_colors. -/
def filter_colors (colors : List Color) (maxBrowns : ℕ) : List Color :=
  let filtered := filterLoop maxBrowns colors 0
  if filtered = [] then sortSatDesc colors else sortSatDesc filtered

theorem sortSatDesc_perm (l : List Color) : (sortSatDesc l).Perm l :=
  List.perm_insertionSort satGE l

theorem sortSatDesc_sorted (l : List Color) : (sortSatDesc l).Pairwise satGE :=
  List.sorted_insertionSort satGE l

theorem gray_not_in_filterLoop (colors : List Color) (maxBrowns : ℕ) :
    ∀ bc, (128, 128, 128) ∉ filterLoop maxBrowns colors bc := by
  induction colors with
  | nil => intro bc; simp [filterLoop]
  | cons c cs ih =>
    intro bc
    rw [filterLoop]
    by_cases hrej : rejectedBasic c = true
    · rw [if_pos hrej]
      exact ih bc
    · have hc : c ≠ (128, 128, 128) := by
        intro h
        rw [h] at hrej
        exact hrej (by with_unfolding_all decide)
      rw [if_neg hrej]
      by_cases hbr : is_brown c = true
      · rw [if_pos hbr]
        by_cases hcap : maxBrowns ≤ bc
        · rw [if_pos hcap]
          exact ih bc
        · rw [if_neg hcap]
          intro hmem
          rcases List.mem_cons.mp hmem with h | h
          · exact hc h.symm
          · exact ih (bc + 1) h
      · rw [if_neg hbr]
        intro hmem
        rcases List.mem_cons.mp hmem with h | h
        · exact hc h.symm
        · exact ih bc h

theorem red_in_filterLoop (colors : List Color) (maxBrowns : ℕ) :
    ∀ bc, (230, 20, 20) ∈ colors → (230, 20, 20) ∈ filterLoop maxBrowns colors bc := by
  induction colors with
  | nil => intro bc h; simp at h
  | cons c cs ih =>
    intro bc hmem
    rw [filterLoop]
    rcases List.mem_cons.mp hmem with h | h
    · rw [← h]
      rw [if_neg (by with_unfolding_all decide), if_neg (by with_unfolding_all decide)]
      exact List.mem_cons_self _ _
    · by_cases hrej : rejectedBasic c = true
      · rw [if_pos hrej]
        exact ih bc h
      · rw [if_neg hrej]
        by_cases hbr : is_brown c = true
        · rw [if_pos hbr]
          by_cases hcap : maxBrowns ≤ bc
          · rw [if_pos hcap]
            exact ih bc h
          · rw [if_neg hcap]
            exact List.mem_cons_of_mem c (ih (bc + 1) h)
        · rw [if_neg hbr]
          exact List.mem_cons_of_mem c (ih bc h)

theorem brown_count_filterLoop (maxBrowns : ℕ) (colors : List Color) :
    ∀ bc, (filterLoop maxBrowns colors bc).countP is_brown ≤ maxBrowns - bc := by
  induction colors with
  | nil => intro bc; simp [filterLoop]
  | cons c cs ih =>
    intro bc
    rw [filterLoop]
    by_cases hrej : rejectedBasic c = true
    · rw [if_pos hrej]
      exact ih bc
    · rw [if_neg hrej]
      by_cases hbr : is_brown c = true
      · rw [if_pos hbr]
        by_cases hcap : maxBrowns ≤ bc
        · rw [if_pos hcap]
          exact ih bc
        · rw [if_neg hcap]
          rw [List.countP_cons_of_pos _ _ hbr]
          have := ih (bc + 1)
          omega
      · rw [if_neg hbr]
        rw [List.countP_cons_of_neg _ _ (by simp [hbr])]
        exact ih bc

/-- C3: on a non-empty candidate list where the filtering loop rejects every
candidate, filter_colors falls back to the full original list sorted by
descending saturation, hence a non-empty result of the same length as the
input, sorted by descending saturation. -/
theorem filter_fallback (colors : List Color) (maxBrowns : ℕ) (hne : colors ≠ [])
    (hrej : filterLoop maxBrowns colors 0 = []) :
    filter_colors colors maxBrowns = sortSatDesc colors ∧
    filter_colors colors maxBrowns ≠ [] ∧
    (filter_colors colors maxBrowns).length = colors.length ∧
    (filter_colors colors maxBrowns).Pairwise satGE := by
  have heq : filter_colors colors maxBrowns = sortSatDesc colors := by
    simp only [filter_colors]
    rw [if_pos hrej]
  refine ⟨heq, ?_, ?_, ?_⟩
  · rw [heq]
    intro h
    have hperm := sortSatDesc_perm colors
    rw [h] at hperm
    exact hne hperm.nil_eq.symm
  · rw [heq]
    exact (sortSatDesc_perm colors).length_eq
  · rw [heq]
    exact sortSatDesc_sorted colors

/-- Closed witness for the filter fallback theorem: two grays, both rejected by
the saturation rule. -/
theorem filter_fallback_witness :
    filter_colors [(100, 100, 100), (128, 128, 128)] 2 =
      sortSatDesc [(100, 100, 100), (128, 128, 128)] ∧
    filter_colors [(100, 100, 100), (128, 128, 128)] 2 ≠ [] ∧
    (filter_colors [(100, 100, 100), (128, 128, 128)] 2).length =
      ([(100, 100, 100), (128, 128, 128)] : List Color).length ∧
    (filter_colors [(100, 100, 100), (128, 128, 128)] 2).Pairwise satGE :=
  filter_fallback [(100, 100, 100), (128, 128, 128)] 2 (by simp)
    (by with_unfolding_all decide)

/-- C6 counterexample: when every candidate is rejected the fallback returns
the original list, so pure mid-gray does appear in the output for the input
consisting of just that gray. -/
theorem gray_in_output_fallback : (128, 128, 128) ∈ filter_colors [(128, 128, 128)] 2 := by
  with_unfolding_all decide

/-- C6 amended: pure mid-gray is always rejected by the filtering loop and so
never kept; whenever at least one candidate survives the loop, gray does not
appear in the output (it can appear only through the all-rejected fallback);
the saturated red with RGB (230, 20, 20) is always kept and always appears in
the output. -/
theorem gray_rejected_red_kept (colors : List Color) (maxBrowns bc : ℕ) :
    (128, 128, 128) ∉ filterLoop maxBrowns colors bc ∧
    (filterLoop maxBrowns colors 0 ≠ [] → (128, 128, 128) ∉ filter_colors colors maxBrowns) ∧
    ((230, 20, 20) ∈ colors → (230, 20, 20) ∈ filter_colors colors maxBrowns) := by
  refine ⟨gray_not_in_filterLoop colors maxBrowns bc, ?_, ?_⟩
  · intro hne hmem
    simp only [filter_colors] at hmem
    rw [if_neg hne] at hmem
    exact gray_not_in_filterLoop colors maxBrowns 0
      ((sortSatDesc_perm _).mem_iff.mp hmem)
  · intro hmem
    have hin := red_in_filterLoop colors maxBrowns 0 hmem
    have hne : filterLoop maxBrowns colors 0 ≠ [] := List.ne_nil_of_mem hin
    simp only [filter_colors]
    rw [if_neg hne]
    exact (sortSatDesc_perm _).mem_iff.mpr hin

/-- Closed witness for the amended gray and red filter theorem. -/
theorem gray_rejected_red_kept_witness :
    (230, 20, 20) ∈ filter_colors [(230, 20, 20)] 2 :=
  (gray_rejected_red_kept [(230, 20, 20)] 2 0).2.2 (by simp)

/-- C7: whenever at least one candidate survives the filtering loop, the
output of filter_colors contains at most the earth-tone cap many colors
classified as earth tones. -/
theorem earth_tone_cap (colors : List Color) (maxBrowns : ℕ)
    (hsome : filterLoop maxBrowns colors 0 ≠ []) :
    (filter_colors colors maxBrowns).countP is_brown ≤ maxBrowns := by
  have heq : filter_colors colors maxBrowns = sortSatDesc (filterLoop maxBrowns colors 0) := by
    simp only [filter_colors]
    rw [if_neg hsome]
  rw [heq, (sortSatDesc_perm _).countP_eq]
  have := brown_count_filterLoop maxBrowns colors 0
  omega

/-- Closed witness for the earth-tone cap theorem at a concrete input. -/
theorem earth_tone_cap_witness :
    (filter_colors [(230, 20, 20)] 2).countP is_brown ≤ 2 :=
  earth_tone_cap [(230, 20, 20)] 2 (by with_unfolding_all decide)

/-- Squared Euclidean RGB distance between two colors, the radicand of
color_distance. -/
def sqDist (a b : Color) : ℤ :=
  ((a.1 : ℤ) - b.1) ^ 2 + ((a.2.1 : ℤ) - b.2.1) ^ 2 + ((a.2.2 : ℤ) - b.2.2) ^ 2

/-- The comparison of color_distance against a threshold, made exact: the
nonnegative square root exceeds the threshold iff the threshold is negative or
the squared distance exceeds the squared threshold. -/
def distGT (a b : Color) (m : ℚ) : Bool :=
  if m < 0 then true else decide ((m ^ 2 : ℚ) < (sqDist a b : ℚ))

theorem sqDist_comm (a b : Color) : sqDist a b = sqDist b a := by
  simp only [sqDist]
  ring

theorem distGT_comm (a b : Color) (m : ℚ) : distGT a b m = distGT b a m := by
  simp only [distGT, sqDist_comm]

/-- The greedy accumulation loop of ensure_diversity: keep a candidate only if
its distance to every already kept color exceeds the threshold. -/
def divLoop (m : ℚ) : List Color → List Color → List Color
  | diverse, [] => diverse
  | diverse, c :: rest =>
    if diverse.all (fun s => distGT c s m) then divLoop m (diverse ++ [c]) rest
    else divLoop m diverse rest

/-- Translation of ensure_diversity. -/
def ensure_diversity : List Color → ℚ → List Color
  | [], _ => []
  | c :: rest, m => divLoop m [c] rest

theorem divLoop_structure (m : ℚ) (rest : List Color) :
    ∀ acc, ∃ s, divLoop m acc rest = acc ++ s ∧ s.Sublist rest := by
  induction rest with
  | nil => exact fun acc => ⟨[], by simp [divLoop]⟩
  | cons c cs ih =>
    intro acc
    rw [divLoop]
    by_cases h : acc.all (fun s => distGT c s m) = true
    · rw [if_pos h]
      obtain ⟨s, hs, hsub⟩ := ih (acc ++ [c])
      exact ⟨c :: s, by simp [hs], List.Sublist.cons₂ c hsub⟩
    · rw [if_neg h]
      obtain ⟨s, hs, hsub⟩ := ih acc
      exact ⟨s, hs, List.Sublist.cons c hsub⟩

theorem divLoop_pairwise (m : ℚ) (rest : List Color) :
    ∀ acc, acc.Pairwise (fun a b => distGT a b m = true) →
      (divLoop m acc rest).Pairwise (fun a b => distGT a b m = true) := by
  induction rest with
  | nil => intro acc h; simpa [divLoop] using h
  | cons c cs ih =>
    intro acc hacc
    rw [divLoop]
    by_cases h : acc.all (fun s => distGT c s m) = true
    · rw [if_pos h]
      apply ih
      rw [List.pairwise_append]
      refine ⟨hacc, by simp, ?_⟩
      intro a ha b hb
      simp at hb
      subst hb
      rw [distGT_comm]
      exact List.all_eq_true.mp h a ha
    · rw [if_neg h]
      exact ih acc hacc

theorem divLoop_full (m : ℚ) (rest : List Color) :
    ∀ acc, (∀ c ∈ rest, ∀ x ∈ acc, distGT c x m = true) →
      rest.Pairwise (fun a b => distGT b a m = true) →
      divLoop m acc rest = acc ++ rest := by
  induction rest with
  | nil => intro acc _ _; simp [divLoop]
  | cons c cs ih =>
    intro acc hvs hpw
    rw [divLoop]
    have hall : acc.all (fun s => distGT c s m) = true := by
      rw [List.all_eq_true]
      exact fun x hx => hvs c (List.mem_cons_self c cs) x hx
    have h2 : ∀ d ∈ cs, ∀ x ∈ acc ++ [c], distGT d x m = true := by
      intro d hd x hx
      rcases List.mem_append.mp hx with h | h
      · exact hvs d (List.mem_cons_of_mem c hd) x h
      · simp at h
        subst h
        exact (List.pairwise_cons.mp hpw).1 d hd
    rw [if_pos hall, ih (acc ++ [c]) h2 (List.Pairwise.of_cons hpw)]
    simp

/-- C5: on every non-empty input, ensure_diversity keeps the first color as
the head, returns a subsequence of the input in input order, and every pair of
kept colors is farther apart than the threshold. -/
theorem diversify_spec (xs : List Color) (m : ℚ) (hne : xs ≠ []) :
    (ensure_diversity xs m).head? = xs.head? ∧
    (ensure_diversity xs m).Sublist xs ∧
    (ensure_diversity xs m).Pairwise (fun a b => distGT a b m = true) := by
  cases xs with
  | nil => exact absurd rfl hne
  | cons c rest =>
    obtain ⟨s, hs, hsub⟩ := divLoop_structure m rest [c]
    have hys : ensure_diversity (c :: rest) m = c :: s := by
      simp only [ensure_diversity, hs]
      rfl
    refine ⟨by rw [hys]; rfl, ?_, ?_⟩
    · rw [hys]
      exact List.Sublist.cons₂ c hsub
    · have hp := divLoop_pairwise m rest [c] (by simp)
      simpa only [ensure_diversity] using hp

/-- Closed witness for the diversity theorem at a concrete input. -/
theorem diversify_spec_witness :
    (ensure_diversity [(0, 0, 0), (255, 255, 255)] 30).head? =
      ([(0, 0, 0), (255, 255, 255)] : List Color).head? ∧
    (ensure_diversity [(0, 0, 0), (255, 255, 255)] 30).Sublist [(0, 0, 0), (255, 255, 255)] ∧
    (ensure_diversity [(0, 0, 0), (255, 255, 255)] 30).Pairwise
      (fun a b => distGT a b 30 = true) :=
  diversify_spec [(0, 0, 0), (255, 255, 255)] 30 (by simp)

/-- C10: ensure_diversity is idempotent: applied to its own output with the
same threshold it returns that output unchanged. -/
theorem diversify_idempotent (xs : List Color) (m : ℚ) :
    ensure_diversity (ensure_diversity xs m) m = ensure_diversity xs m := by
  cases xs with
  | nil => rfl
  | cons c rest =>
    obtain ⟨s, hs, _⟩ := divLoop_structure m rest [c]
    have hys : ensure_diversity (c :: rest) m = c :: s := by
      simp only [ensure_diversity, hs]
      rfl
    have hpw : (c :: s).Pairwise (fun a b => distGT a b m = true) := by
      rw [← hys]
      simpa only [ensure_diversity] using divLoop_pairwise m rest [c] (by simp)
    rw [hys]
    simp only [ensure_diversity]
    have hfull : divLoop m [c] s = [c] ++ s := by
      apply divLoop_full
      · intro d hd x hx
        simp at hx
        subst hx
        rw [distGT_comm]
        exact (List.pairwise_cons.mp hpw).1 d hd
      · exact (List.pairwise_cons.mp hpw).2.imp fun h => by rwa [distGT_comm] at h
    rw [hfull]
    rfl

/-- Distinct colors of a list in order of first occurrence: the iteration
order of the Counter dictionary built from the list. -/
def firstOccs (l : List String) : List String :=
  l.foldl (fun acc x => if x ∈ acc then acc else acc ++ [x]) []

/-- The items of the Counter: each distinct color paired with its occurrence
count, in first-occurrence order. -/
def counterItems (l : List String) : List (String × ℕ) :=
  (firstOccs l).map fun c => (c, l.count c)

/-- Ranking relation of most_common: the earlier item counts at least as much
as the later one; the stable descending sort by count is insertion sort with
this relation. -/
def cntGE (a b : String × ℕ) : Prop := b.2 ≤ a.2

instance : DecidableRel cntGE := fun a b => inferInstanceAs (Decidable (b.2 ≤ a.2))

instance : IsTotal (String × ℕ) cntGE := ⟨fun a b => le_total b.2 a.2⟩

instance : IsTrans (String × ℕ) cntGE := ⟨fun _ _ _ h1 h2 => le_trans h2 h1⟩

/-- Model of Counter most_common with a count argument: items sorted by count
descending with ties in first-occurrence order, then truncated. -/
def most_common (l : List String) (n : ℕ) : List (String × ℕ) :=
  (List.insertionSort cntGE (counterItems l)).take n

/-- Translation of the aggregation step of process_city: flatten the per-image
palettes, count every hex color, and keep the most common target colors. -/
def aggregate (palettes : List (List String)) (target : ℕ) : List String :=
  (most_common palettes.flatten target).map Prod.fst

theorem counterItems_snd (l : List String) :
    ∀ p ∈ counterItems l, p.2 = l.count p.1 := by
  intro p hp
  simp only [counterItems, List.mem_map] at hp
  obtain ⟨c, _, rfl⟩ := hp
  rfl

/-- C4: aggregation flattens all palettes, counts occurrences, and keeps the
most frequent colors with ties broken by first occurrence: on the documented
example of three palettes the result is the twice-plus-one-seen color followed
by the twice-seen one; on a pure tie the first-seen color comes first; and in
general the result has at most target length and is ordered by descending
occurrence count in the flattened sequence. -/
theorem aggregate_spec :
    aggregate [["#aa1122", "#bb3344"], ["#bb3344", "#cc5566"], ["#bb3344", "#aa1122"]] 2 =
      ["#bb3344", "#aa1122"] ∧
    aggregate [["#aa1122"], ["#bb3344"]] 2 = ["#aa1122", "#bb3344"] ∧
    ∀ (ps : List (List String)) (t : ℕ),
      (aggregate ps t).length ≤ t ∧
      (aggregate ps t).Pairwise fun a b => ps.flatten.count b ≤ ps.flatten.count a := by
  refine ⟨by decide, by decide, ?_⟩
  intro ps t
  constructor
  · simp only [aggregate, most_common]
    rw [List.length_map, List.length_take]
    exact min_le_left _ _
  · have hsorted : (List.insertionSort cntGE (counterItems ps.flatten)).Pairwise cntGE :=
      List.sorted_insertionSort cntGE (counterItems ps.flatten)
    have htake : ((List.insertionSort cntGE (counterItems ps.flatten)).take t).Pairwise cntGE :=
      hsorted.sublist (List.take_sublist t _)
    have hmem : ∀ p ∈ (List.insertionSort cntGE (counterItems ps.flatten)).take t,
        p.2 = ps.flatten.count p.1 := by
      intro p hp
      exact counterItems_snd _ p
        ((List.perm_insertionSort cntGE _).subset ((List.take_sublist t _).subset hp))
    simp only [aggregate, most_common]
    rw [List.pairwise_map]
    refine List.Pairwise.imp_of_mem ?_ htake
    intro a b ha hb hab
    have h1 := hmem a ha
    have h2 := hmem b hb
    rw [← h1, ← h2]
    exact hab

/-- Index of the first centroid at minimal squared distance, the running state
being the next index, the best index and the best squared distance so far. -/
def argminAux (p : Color) : List Color → ℕ → ℕ → ℤ → ℕ
  | [], _, bi, _ => bi
  | c :: cs, i, bi, bd =>
    if sqDist p c < bd then argminAux p cs (i + 1) i (sqDist p c)
    else argminAux p cs (i + 1) bi bd

/-- Translation of find_closest_centroid: the index of the first centroid at
minimal RGB distance; none models the ValueError Python's min raises on an
empty centroid list. -/
def find_closest_centroid (p : Color) : List Color → Option ℕ
  | [] => none
  | c :: cs => some (argminAux p cs 1 0 (sqDist p c))

/-- Append a pixel to the cluster list at the given index; none models the
IndexError on an out-of-range index. -/
def addToCluster (clusters : List (List Color)) (i : ℕ) (p : Color) :
    Option (List (List Color)) :=
  if i < clusters.length then some (clusters.set i (clusters.getD i [] ++ [p])) else none

/-- The assignment step of kmeans_colors: distribute every pixel into the
cluster of its nearest centroid, starting from k empty clusters. -/
def assignPixels (pixels centroids : List Color) (k : ℕ) : Option (List (List Color)) :=
  pixels.foldlM
    (fun clusters p => (find_closest_centroid p centroids).bind fun i => addToCluster clusters i p)
    (List.replicate k [])

/-- Translation of calculate_centroid: integer floor-division mean per channel,
with the gray default on an empty cluster. -/
def calculate_centroid (pixels : List Color) : Color :=
  if pixels = [] then (128, 128, 128)
  else
    ((pixels.map fun p => p.1).sum / pixels.length,
     (pixels.map fun p => p.2.1).sum / pixels.length,
     (pixels.map fun p => p.2.2).sum / pixels.length)

/-- The new-centroid step: a nonempty cluster moves its centroid to the cluster
mean, an empty cluster keeps its previous centroid; indexing past the end of
the previous centroid list is Python's IndexError, modeled as none. -/
def recompute (clusters : List (List Color)) (centroids : List Color) :
    Option (List Color) :=
  clusters.enum.mapM fun ic =>
    if ic.2 ≠ [] then some (calculate_centroid ic.2) else centroids.get? ic.1

/-- One iteration of the kmeans_colors loop: assignment followed by centroid
recomputation. -/
def stepOnce (pixels : List Color) (k : ℕ) (cs : List Color) :
    Option (List (List Color) × List Color) :=
  (assignPixels pixels cs k).bind fun clusters =>
    (recompute clusters cs).map fun csNew => (clusters, csNew)

/-- The iteration loop of kmeans_colors with explicit remaining fuel, returning
the clusters variable left over from the last executed iteration together with
the final centroids; the clusters slot stays none when no iteration ran, where
Python raises a NameError at the final indexing. -/
def kloop (pixels : List Color) (k : ℕ) :
    ℕ → List Color → Option (List (List Color)) →
      Option (Option (List (List Color)) × List Color)
  | 0, cs, last => some (last, cs)
  | n + 1, cs, _ =>
    match stepOnce pixels k cs with
    | none => none
    | some (clusters, csNew) =>
      if csNew = cs then some (some clusters, cs)
      else kloop pixels k n csNew (some clusters)

/-- Python tuple comparison on a size and centroid pair: lexicographic on the
size, then the RGB channels. -/
def pairLE (a b : ℕ × Color) : Prop :=
  a.1 < b.1 ∨ (a.1 = b.1 ∧ (a.2.1 < b.2.1 ∨ (a.2.1 = b.2.1 ∧
    (a.2.2.1 < b.2.2.1 ∨ (a.2.2.1 = b.2.2.1 ∧ a.2.2.2 ≤ b.2.2.2)))))

/-- Ranking used by the final sort of kmeans_colors with reverse set: the
earlier pair is tuple-greater-or-equal. -/
def pairGE (a b : ℕ × Color) : Prop := pairLE b a

instance : DecidableRel pairLE := fun a b => by
  unfold pairLE
  infer_instance

instance : DecidableRel pairGE := fun a b => inferInstanceAs (Decidable (pairLE b a))

instance : IsTotal (ℕ × Color) pairGE := by
  constructor
  intro a b
  obtain ⟨s, r, g, c⟩ := a
  obtain ⟨s', r', g', c'⟩ := b
  simp only [pairGE, pairLE]
  omega

instance : IsTrans (ℕ × Color) pairGE := by
  constructor
  intro a b c hab hbc
  obtain ⟨s1, r1, g1, b1⟩ := a
  obtain ⟨s2, r2, g2, b2⟩ := b
  obtain ⟨s3, r3, g3, b3⟩ := c
  simp only [pairGE, pairLE] at hab hbc ⊢
  omega

/-- Assembly of the cluster_sizes list: for every index below k, the size of
that cluster paired with that centroid; indexing past the end of the centroid
list is Python's IndexError, modeled as none. -/
def buildPairs (k : ℕ) (clusters : List (List Color)) (centroids : List Color) :
    Option (List (ℕ × Color)) :=
  (List.range k).mapM fun i =>
    (clusters.get? i).bind fun cl => (centroids.get? i).map fun c => (cl.length, c)

/-- The final sorting and projection of kmeans_colors applied to the loop
products. -/
def finalize (k : ℕ) (o : List (List Color) × List Color) : Option (List (ℕ × Color)) :=
  (buildPairs k o.1 o.2).map fun ps => List.insertionSort pairGE ps

/-- Sorted size and centroid pairs of a full run of kmeans_colors; none models
any exception raised along the way. -/
def kmeansPairs (pixels : List Color) (k : ℕ) (init : List Color) (maxIter : ℕ) :
    Option (List (ℕ × Color)) :=
  (kloop pixels k maxIter init none).bind fun r =>
    match r.1 with
    | none => none
    | some clusters => finalize k (clusters, r.2)

/-- Translation of kmeans_colors, parameterized by the initial centroid sample
drawn by random.sample and by the iteration cap. -/
def kmeans_colors (pixels : List Color) (k : ℕ) (init : List Color) (maxIter : ℕ) :
    Option (List Color) :=
  (kmeansPairs pixels k init maxIter).map fun ps => ps.map Prod.snd

/-- The kmeans_colors loop as a run relation: from a centroid state and a
number of remaining iterations, the loop finishes with the recorded clusters
and final centroids.  A run either converges (the recomputed centroids equal
the current ones), or exhausts its last iteration with changed centroids, or
steps to a changed state and continues. -/
inductive KRun (pixels : List Color) (k : ℕ) :
    ℕ → List Color → List (List Color) × List Color → Prop
  | converge (n : ℕ) (cs : List Color) (cl : List (List Color)) :
      stepOnce pixels k cs = some (cl, cs) → KRun pixels k (n + 1) cs (cl, cs)
  | last (cs csNew : List Color) (cl : List (List Color)) :
      stepOnce pixels k cs = some (cl, csNew) → csNew ≠ cs →
      KRun pixels k 1 cs (cl, csNew)
  | go (n : ℕ) (cs csNew : List Color) (cl : List (List Color))
      (out : List (List Color) × List Color) :
      stepOnce pixels k cs = some (cl, csNew) → csNew ≠ cs →
      KRun pixels k (n + 1) csNew out → KRun pixels k (n + 2) cs out

theorem KRun_deterministic (pixels : List Color) (k : ℕ) (fuel : ℕ) (cs : List Color)
    (o₁ o₂ : List (List Color) × List Color)
    (h1 : KRun pixels k fuel cs o₁) (h2 : KRun pixels k fuel cs o₂) : o₁ = o₂ := by
  induction h1 generalizing o₂ with
  | converge n cs cl hstep =>
    cases h2 with
    | converge n2 cs2 cl2 hstep2 =>
      rw [hstep] at hstep2
      simp only [Option.some.injEq, Prod.mk.injEq] at hstep2
      rw [hstep2.1]
    | last cs2 csNew2 cl2 hstep2 hne2 =>
      rw [hstep] at hstep2
      simp only [Option.some.injEq, Prod.mk.injEq] at hstep2
      exact absurd hstep2.2.symm hne2
    | go n2 cs2 csNew2 cl2 out2 hstep2 hne2 hrun2 =>
      rw [hstep] at hstep2
      simp only [Option.some.injEq, Prod.mk.injEq] at hstep2
      exact absurd hstep2.2.symm hne2
  | last cs csNew cl hstep hne =>
    cases h2 with
    | converge n2 cs2 cl2 hstep2 =>
      rw [hstep] at hstep2
      simp only [Option.some.injEq, Prod.mk.injEq] at hstep2
      exact absurd hstep2.2 hne
    | last cs2 csNew2 cl2 hstep2 hne2 =>
      rw [hstep] at hstep2
      simp only [Option.some.injEq, Prod.mk.injEq] at hstep2
      rw [hstep2.1, hstep2.2]
  | go n cs csNew cl out hstep hne hrun ih =>
    cases h2 with
    | converge n2 cs2 cl2 hstep2 =>
      rw [hstep] at hstep2
      simp only [Option.some.injEq, Prod.mk.injEq] at hstep2
      exact absurd hstep2.2 hne
    | go n2 cs2 csNew2 cl2 out2 hstep2 hne2 hrun2 =>
      rw [hstep] at hstep2
      simp only [Option.some.injEq, Prod.mk.injEq] at hstep2
      rw [← hstep2.2] at hrun2
      exact ih _ hrun2

theorem kloop_sound (pixels : List Color) (k : ℕ) :
    ∀ fuel cs lastCl cl csFin,
      kloop pixels k fuel cs lastCl = some (some cl, csFin) →
      KRun pixels k fuel cs (cl, csFin) ∨ (fuel = 0 ∧ lastCl = some cl ∧ csFin = cs) := by
  intro fuel
  induction fuel with
  | zero =>
    intro cs lastCl cl csFin h
    rw [kloop] at h
    simp only [Option.some.injEq, Prod.mk.injEq] at h
    exact Or.inr ⟨rfl, h.1, h.2.symm⟩
  | succ n ih =>
    intro cs lastCl cl csFin h
    rw [kloop] at h
    match hstep : stepOnce pixels k cs with
    | none =>
      simp only [hstep] at h
      exact Option.noConfusion h
    | some (clusters, csNew) =>
      simp only [hstep] at h
      by_cases heq : csNew = cs
      · rw [if_pos heq] at h
        simp only [Option.some.injEq, Prod.mk.injEq] at h
        obtain ⟨h1, h2⟩ := h
        subst h1
        subst h2
        left
        rw [heq] at hstep
        exact KRun.converge n cs clusters hstep
      · rw [if_neg heq] at h
        rcases ih csNew (some clusters) cl csFin h with hrun | ⟨hn, hcl, hcs⟩
        · left
          cases n with
          | zero => cases hrun
          | succ m => exact KRun.go m cs csNew clusters (cl, csFin) hstep heq hrun
        · left
          subst hn
          simp only [Option.some.injEq] at hcl
          subst hcl
          subst hcs
          exact KRun.last _ _ _ hstep heq

/-- C9: the clustering loop is deterministic: two runs on the same pixel list
with the same k, the same initial centroid selection, and the same iteration
budget finish in the same state, and therefore the finalized sorted outputs of
kmeans_colors coincide. -/
theorem kmeans_deterministic (pixels : List Color) (k fuel : ℕ) (init : List Color)
    (o₁ o₂ : List (List Color) × List Color)
    (h1 : KRun pixels k fuel init o₁) (h2 : KRun pixels k fuel init o₂) :
    o₁ = o₂ ∧ finalize k o₁ = finalize k o₂ := by
  have heq := KRun_deterministic pixels k fuel init o₁ o₂ h1 h2
  exact ⟨heq, by rw [heq]⟩

/-- Closed witness for the determinism theorem: a concrete converging run,
used twice. -/
theorem kmeans_deterministic_witness :
    (([[(0, 0, 0)]], [(0, 0, 0)]) : List (List Color) × List Color) =
      ([[(0, 0, 0)]], [(0, 0, 0)]) ∧
    finalize 1 ([[(0, 0, 0)]], [(0, 0, 0)]) = finalize 1 ([[(0, 0, 0)]], [(0, 0, 0)]) :=
  kmeans_deterministic [(0, 0, 0)] 1 20 [(0, 0, 0)] _ _
    (KRun.converge 19 [(0, 0, 0)] [[(0, 0, 0)]] (by decide))
    (KRun.converge 19 [(0, 0, 0)] [[(0, 0, 0)]] (by decide))

/-- C1 evaluation at the failing inputs: with one pixel and k equal to two the
code reaches an out-of-range centroid index and raises, modeled by none; the
empty population raises as well; and a population of two equal pixels returns
two duplicate centroids rather than fewer than k distinct ones. -/
theorem kmeans_degenerate_crash :
    kmeans_colors [(0, 0, 0)] 2 [(0, 0, 0)] 20 = none ∧
    kmeans_colors [] 2 [] 20 = none ∧
    kmeans_colors [(0, 0, 0), (0, 0, 0)] 2 [(0, 0, 0), (0, 0, 0)] 20 =
      some [(0, 0, 0), (0, 0, 0)] := by
  refine ⟨by decide, by decide, by decide⟩

/-- C2 counterexample: a converged run with two clusters of equal size one,
where the centroid of index zero is RGB all zeros and the centroid of index
one is RGB all tens; the output lists the higher RGB tuple first, violating
the claimed stable tie-break by centroid index. -/
theorem kmeans_tie_not_index_order :
    kmeansPairs [(0, 0, 0), (10, 10, 10)] 2 [(0, 0, 0), (10, 10, 10)] 20 =
      some [(1, (10, 10, 10)), (1, (0, 0, 0))] ∧
    kmeans_colors [(0, 0, 0), (10, 10, 10)] 2 [(0, 0, 0), (10, 10, 10)] 20 =
      some [(10, 10, 10), (0, 0, 0)] := by
  refine ⟨by decide, by decide⟩

/-- C2 amended: every successful run of kmeans_colors yields size and centroid
pairs sorted by Python tuple order in reverse, that is by descending assigned
pixel count with ties broken by descending RGB tuple of the centroid, and the
returned colors are the projection of those pairs. -/
theorem kmeans_output_sorted (pixels : List Color) (k : ℕ) (init : List Color)
    (maxIter : ℕ) (ps : List (ℕ × Color))
    (h : kmeansPairs pixels k init maxIter = some ps) :
    ps.Pairwise pairGE ∧ kmeans_colors pixels k init maxIter = some (ps.map Prod.snd) := by
  constructor
  · rw [kmeansPairs] at h
    obtain ⟨r, hr, h2⟩ := Option.bind_eq_some.mp h
    match hcl : r.1 with
    | none => rw [hcl] at h2; simp at h2
    | some clusters =>
      rw [hcl] at h2
      simp only [finalize] at h2
      obtain ⟨raw, hraw, hps⟩ := Option.map_eq_some'.mp h2
      rw [← hps]
      exact List.sorted_insertionSort pairGE raw
  · rw [kmeans_colors, h]
    rfl

/-- Closed witness for the sortedness theorem at a concrete successful run. -/
theorem kmeans_output_sorted_witness :
    ([(1, ((0, 0, 0) : Color))].Pairwise pairGE) ∧
    kmeans_colors [(0, 0, 0)] 1 [(0, 0, 0)] 20 =
      some ([(1, ((0, 0, 0) : Color))].map Prod.snd) :=
  kmeans_output_sorted [(0, 0, 0)] 1 [(0, 0, 0)] 20 [(1, (0, 0, 0))] (by decide)

end Chromatic
